import Mathlib

/-
Verification of s3peat (src/s3peat/__init__.py): a shallow embedding of the
upload coordinator, worker queue, key generation, path filtering, round-robin
partitioning and the shared progress counter, with theorems checking the
specification's claims against the embedded code.

Modelling conventions:
* Python strings are lists of characters (`Str`).
* An optional Python argument that may be `None` is an `Option`.
* Regular-expression objects are abstracted as predicates `Str → Bool`
  (the result of `reg.search(filename)` being truthy).
* The S3 round-trip of one file is abstracted by `outcome : Str → Bool`:
  `outcome fn = true` means the transfer plus ACL assignment of `fn`
  raises no exception, `false` means some exception is raised (the
  `except:` branch runs).
* The fields `attempts` and `sessions` of `QueueState` are observation-only
  instrumentation: `attempts` records the arguments of the `_upload` calls in
  order, `sessions` counts the `bucket.get_new()` calls made by `run`.
  No modelled control flow reads them.
-/

/-- Python strings, modelled as lists of characters. -/
abbrev Str : Type := List Char

/-- The character test used by the slash-trimming operations. -/
def isSlash (c : Char) : Bool := c == '/'

/-- Python `s.strip('/')`: remove leading and trailing slash characters. -/
def stripSlashBoth (s : Str) : Str :=
  ((s.dropWhile isSlash).reverse.dropWhile isSlash).reverse

/-- Python `s.lstrip('/')`: remove leading slash characters. -/
def lstripSlash (s : Str) : Str := s.dropWhile isSlash

/-- Python `'/'.join((a, b))`: one slash is always inserted between the
two parts. -/
def joinSlash (a b : Str) : Str := a ++ '/' :: b

namespace S3Queue

/-- `S3Queue.__init__` line 120: `self.prefix = (prefix or '').strip('/')`.
A `None` (or empty) key prefix is replaced by the empty string, then
leading and trailing slashes are stripped. -/
def storedPfx (p : Option Str) : Str := stripSlashBoth (p.getD [])

/-- `S3Queue._key` lines 179-180: strip `strip_path` from the front of the
filename when `strip_path` is truthy (not `None`, not empty) and the
filename starts with it. -/
def stripLeading (sp : Option Str) (fn : Str) : Str :=
  match sp with
  | none => fn
  | some s => if !s.isEmpty && s.isPrefixOf fn then fn.drop s.length else fn

/-- `S3Queue._key` lines 170-185: strip the leading path, strip leading
slashes, and `'/'`-join the stored prefix with the remainder. -/
def key (p sp : Option Str) (fn : Str) : Str :=
  joinSlash (storedPfx p) (lstripSlash (stripLeading sp fn))

end S3Queue

/-- Modelled from the spec (section 8, key-generation formula):
`trim_slashes` removes separator characters from both ends. -/
def trim_slashes (s : Str) : Str :=
  (((s.dropWhile fun c => c == '/').reverse.dropWhile fun c => c == '/')).reverse

/-- Modelled from the spec (section 8): `trim_leading_slashes` removes
separator characters from the front. -/
def trim_leading_slashes (s : Str) : Str := s.dropWhile fun c => c == '/'

/-- Modelled from the spec (section 8): `strip(path, strip_path)` removes
`strip_path` from the front of `path` when `path` starts with it, and
leaves `path` unstripped otherwise; an absent strip path strips nothing. -/
def spec_strip (path : Str) (sp : Option Str) : Str :=
  match sp with
  | none => path
  | some s => if s.isPrefixOf path then path.drop s.length else path

/-- Modelled from the spec (section 8): `join` of the two key parts with a
single separator. -/
def spec_join (a b : Str) : Str := a ++ '/' :: b

/-- Modelled from the spec (section 8): the key-generation formula
`join(trim_slashes(prefix), trim_leading_slashes(strip(path, strip_path)))`,
with an absent prefix treated as the empty string. -/
def specKey (p sp : Option Str) (path : Str) : Str :=
  spec_join (trim_slashes (p.getD [])) (trim_leading_slashes (spec_strip path sp))

/-- `groups[j].append(x)`: the list at position `j` grows by `x` at its end,
every other group is unchanged. -/
def appendAt {α : Type} (gs : List (List α)) (j : Nat) (x : α) : List (List α) :=
  gs.set j (gs.getD j [] ++ [x])

/-- `S3Uploader.get_filenames` lines 328-329: the loop
`for i in xrange(len(filenames)): groups[i % concurrency].append(filenames[i])`
over the already index-paired file list. -/
def distribute {α : Type} (ps : List (Nat × α)) (n : Nat) (gs : List (List α)) :
    List (List α) :=
  ps.foldl (fun acc q => appendAt acc (q.1 % n) q.2) gs

/-- `S3Uploader.get_filenames` lines 326-330: the `split=True` clause, which
starts from `concurrency` fresh empty groups and distributes the file at
index `i` to group `i % concurrency`. -/
def splitGroups {α : Type} (fns : List α) (n : Nat) : List (List α) :=
  distribute fns.enum n (List.replicate n [])

/-- The shared progress state of `S3Uploader`: the completed count
(`self.count`) and the error count (`self.errors`). -/
structure Counter where
  count : Nat
  errors : Nat

/-- `S3Uploader.counter` lines 334-347: `if error: self.errors += 1` then
`self.count += 1` (the trailing `self._output()` only renders). -/
def counterCall (c : Counter) (error : Bool) : Counter :=
  { count := c.count + 1
    errors := if error then c.errors + 1 else c.errors }

/-- The state of one `S3Queue` worker: the remaining partition
(`self.filenames`), the failure list (`self.failed`), the view of the
shared counter, plus the observation-only `attempts` trace (arguments of
the `_upload` calls in order) and `sessions` count (`bucket.get_new()`
calls made by `run`). -/
structure QueueState where
  filenames : List Str
  failed : List Str
  counter : Counter
  attempts : List Str
  sessions : Nat

/-- `S3Queue._upload` lines 138-168: try the transfer and ACL assignment of
`fn` (abstracted by `outcome fn`); on an exception append `fn` to
`self.failed` and call `self.counter(False)`; on success call
`self.counter()`. Both counter calls pass `error = false`, because the
failure branch literally writes `self.counter(False)`. The bare `except:`
swallows the exception, so this function is total and never removes
anything from `filenames`. -/
def s3upload (outcome : Str → Bool) (st : QueueState) (fn : Str) : QueueState :=
  if outcome fn then
    { st with attempts := st.attempts ++ [fn]
              counter := counterCall st.counter false }
  else
    { st with attempts := st.attempts ++ [fn]
              failed := st.failed ++ [fn]
              counter := counterCall st.counter false }

/-- Python `self.filenames.pop()`: remove the last element. -/
def popLast (st : QueueState) : QueueState :=
  { st with filenames := st.filenames.dropLast }

/-- One iteration of the `while self.filenames:` loop of `S3Queue.run`
lines 130-135: peek at the last filename, upload it, and only then pop it
off the list. -/
def queueStep (outcome : Str → Bool) (st : QueueState) : QueueState :=
  match st.filenames.getLast? with
  | none => st
  | some fn => popLast (s3upload outcome st fn)

/-- The `while self.filenames:` loop of `S3Queue.run`, unrolled on a fuel
argument; every iteration that runs pops exactly one filename, so
`st.filenames.length` fuel runs the loop to completion. -/
def runLoop (outcome : Str → Bool) : Nat → QueueState → QueueState
  | 0, st => st
  | n + 1, st =>
    match st.filenames.getLast? with
    | none => st
    | some fn => runLoop outcome n (popLast (s3upload outcome st fn))

/-- The remainder of `S3Queue.run` from the top of the `while` loop: used to
describe a worker that is already past its `bucket.get_new()` call. -/
def runRemaining (outcome : Str → Bool) (st : QueueState) : QueueState :=
  runLoop outcome st.filenames.length st

namespace S3Queue

/-- `S3Queue.run` lines 126-135: open one new bucket connection
(`bucket = self.bucket.get_new()`, counted in `sessions`), then drain
`self.filenames` from the back, uploading each file before popping it. -/
def run (outcome : Str → Bool) (st : QueueState) : QueueState :=
  runRemaining outcome { st with sessions := st.sessions + 1 }

end S3Queue

/-- `S3Uploader.stop` lines 273-285: clear every queue's list of files left
to process (`queue.filenames = []`); nothing else in the queue states is
touched. -/
def stopQueues (qs : List QueueState) : List QueueState :=
  qs.map fun q => { q with filenames := [] }

/-- Reference fold describing what draining a queue does to the failure
list and the counter, one filename at a time in the given order. -/
def processSeq (outcome : Str → Bool) (fns : List Str) (st : List Str × Counter) :
    List Str × Counter :=
  fns.foldl
    (fun p fn =>
      if outcome fn then (p.1, counterCall p.2 false)
      else (p.1 ++ [fn], counterCall p.2 false))
    st

namespace S3Uploader

/-- `S3Uploader.get_filenames` lines 299-324 (without `split`): `walked` is
the sequence of joined paths produced by the `os.walk` traversal of the
directory, in traversal order; `incl` and `excl` are the compiled regex
lists abstracted as search predicates, with an absent (`None`) argument
modelled as the empty list (both are falsy in the `if self.include:` and
`if self.exclude:` tests). Returns the accumulated filename list paired
with the final value of `self.total`, which starts at 0 and is incremented
alongside each append. -/
def get_filenames (incl excl : List (Str → Bool)) (walked : List Str) :
    List Str × Nat :=
  walked.foldl
    (fun st fn =>
      if !incl.isEmpty && !(incl.any fun r => r fn) then st
      else if !excl.isEmpty && (excl.any fun r => r fn) then st
      else (st.1 ++ [fn], st.2 + 1))
    ([], 0)

end S3Uploader

/-- The observable result of one `S3Uploader.upload` run: the returned
failure list, the final shared counter, the number of `S3Queue` threads
started (`queue.start()` calls) and the number of bucket sessions the
workers opened (`bucket.get_new()` calls made inside `S3Queue.run`). -/
structure RunResult where
  failures : List Str
  counter : Counter
  workersStarted : Nat
  sessionsOpened : Nat

/-- The `for queue in filenames:` loop of `S3Uploader.upload` lines
249-255, generalized over the starting accumulator: build and run one
`S3Queue` per group, threading the shared counter from one queue to the
next. The real threads run concurrently, but each `counter` call adds
fixed increments that depend only on its own argument, so every
interleaving produces the same final counter; this serialization is
therefore counter-exact, and all other queue state is owned by a single
worker. -/
def startQueuesFrom (outcome : Str → Bool) (groups : List (List Str))
    (acc : List QueueState) (c : Counter) : List QueueState × Counter :=
  groups.foldl
    (fun a g =>
      (a.1 ++ [S3Queue.run outcome ⟨g, [], a.2, [], 0⟩],
        (S3Queue.run outcome ⟨g, [], a.2, [], 0⟩).counter))
    (acc, c)

namespace S3Uploader

/-- `S3Uploader.upload` lines 226-271: reset the counters, partition the
filtered file list `fns` into `n = self.concurrency` groups, start one
queue per group, wait until every queue's list is drained, and collect
`queue.failed` from every queue, in queue order, into the returned failure
list. -/
def upload (outcome : Str → Bool) (fns : List Str) (n : Nat) : RunResult :=
  let qs := startQueuesFrom outcome (splitGroups fns n) [] ⟨0, 0⟩
  { failures := qs.1.foldl (fun fl st => fl ++ st.failed) []
    counter := qs.2
    workersStarted := qs.1.length
    sessionsOpened := qs.1.foldl (fun k st => k + st.sessions) 0 }

end S3Uploader

theorem stripLeading_eq_spec_strip (sp : Option Str) (fn : Str) :
    S3Queue.stripLeading sp fn = spec_strip fn sp := by
  cases sp with
  | none => rfl
  | some s =>
    cases s with
    | nil => simp [S3Queue.stripLeading, spec_strip, List.isPrefixOf]
    | cons c cs =>
      simp [S3Queue.stripLeading, spec_strip]

/-- C3: for every (prefix, strip_path, path) triple the destination key
computed by `S3Queue._key` equals the spec formula
`join(trim_slashes(prefix), trim_leading_slashes(strip(path, strip_path)))`;
on prefix `my-prefix`, strip path `/base/path` and path
`/base/path/dir/file.txt` the key is `my-prefix/dir/file.txt`; a path that
does not start with the strip path is left unstripped. -/
theorem s3queue_key_formula :
    (∀ p sp fn, S3Queue.key p sp fn = specKey p sp fn)
    ∧ S3Queue.key (some (("my-prefix").data)) (some (("/base/path").data))
        (("/base/path/dir/file.txt").data) = ("my-prefix/dir/file.txt").data
    ∧ (∀ p s fn, List.isPrefixOf s fn = false →
        S3Queue.key p (some s) fn
          = joinSlash (S3Queue.storedPfx p) (lstripSlash fn)) := by
  refine ⟨?_, by decide, ?_⟩
  · intro p sp fn
    rw [S3Queue.key, stripLeading_eq_spec_strip]
    rfl
  · intro p s fn h
    simp [S3Queue.key, S3Queue.stripLeading, h]

/-- C3 witness: the unstripped-path clause of `s3queue_key_formula` applied
at a concrete path that does not start with the strip path. -/
theorem s3queue_key_formula_check :
    List.isPrefixOf (("zz").data) (("file.txt").data) = false
    ∧ S3Queue.key none (some (("zz").data)) (("file.txt").data)
        = joinSlash (S3Queue.storedPfx none) (lstripSlash (("file.txt").data)) :=
  ⟨by decide, s3queue_key_formula.2.2 none (("zz").data) (("file.txt").data) (by decide)⟩

/-- C4 counterexample: an absent prefix is stored as the empty string, yet
the key computed for `file.txt` begins with a path separator, because
`'/'.join` always inserts one separator between the prefix and the rest:
the claim that no leading separator precedes the relative path is false. -/
theorem empty_pfx_leading_slash :
    S3Queue.storedPfx none = []
    ∧ (S3Queue.key none none (("file.txt").data)).head? = some '/' := by
  exact ⟨rfl, rfl⟩

/-- C4 amended: when the key prefix is empty or absent it is treated as the
empty string, and the resulting key is one path separator followed by the
stripped relative path (the pair join always inserts a separator, so the
key does carry a leading separator). -/
theorem empty_pfx_key (p : Option Str) (hp : p = none ∨ p = some [])
    (sp : Option Str) (fn : Str) :
    S3Queue.key p sp fn = '/' :: lstripSlash (S3Queue.stripLeading sp fn) := by
  rcases hp with h | h <;> subst h <;> rfl

/-- C4 witness: `empty_pfx_key` applied to the absent prefix and a concrete
path. -/
theorem empty_pfx_key_check :
    S3Queue.key none none (("file.txt").data)
      = '/' :: lstripSlash (S3Queue.stripLeading none (("file.txt").data)) :=
  empty_pfx_key none (Or.inl rfl) none (("file.txt").data)

theorem appendAt_length {α : Type} (gs : List (List α)) (j : Nat) (x : α) :
    (appendAt gs j x).length = gs.length := by
  simp [appendAt]

theorem appendAt_getD {α : Type} (gs : List (List α)) (k : Nat) (x : α)
    (hk : k < gs.length) (j : Nat) :
    (appendAt gs k x).getD j [] =
      if k = j then gs.getD j [] ++ [x] else gs.getD j [] := by
  by_cases h : k = j
  · subst h
    simp [appendAt, List.getD_eq_getElem?_getD, List.getElem?_set, hk]
  · simp [appendAt, List.getD_eq_getElem?_getD, List.getElem?_set, h]

theorem distribute_length {α : Type} (ps : List (Nat × α)) (n : Nat)
    (gs : List (List α)) : (distribute ps n gs).length = gs.length := by
  induction ps generalizing gs with
  | nil => rfl
  | cons q ps ih =>
    calc (distribute (q :: ps) n gs).length
        = (distribute ps n (appendAt gs (q.1 % n) q.2)).length := rfl
      _ = (appendAt gs (q.1 % n) q.2).length := ih _
      _ = gs.length := appendAt_length _ _ _

theorem distribute_getD {α : Type} (ps : List (Nat × α)) (n : Nat)
    (gs : List (List α)) (hlen : gs.length = n) (j : Nat) (hj : j < n) :
    (distribute ps n gs).getD j [] =
      gs.getD j [] ++ (ps.filter (fun q => q.1 % n == j)).map Prod.snd := by
  induction ps generalizing gs with
  | nil => simp [distribute]
  | cons q ps ih =>
    have hn : 0 < n := Nat.lt_of_le_of_lt (Nat.zero_le j) hj
    have hmod : q.1 % n < gs.length := by
      rw [hlen]; exact Nat.mod_lt _ hn
    have hstep : distribute (q :: ps) n gs
        = distribute ps n (appendAt gs (q.1 % n) q.2) := rfl
    rw [hstep, ih _ (by rw [appendAt_length, hlen]),
      appendAt_getD gs (q.1 % n) q.2 hmod j]
    by_cases hq : q.1 % n = j
    · simp [hq, List.filter_cons]
    · simp [hq, List.filter_cons]

theorem flatten_appendAt_perm {α : Type} (gs : List (List α)) (k : Nat) (x : α)
    (hk : k < gs.length) :
    List.Perm (appendAt gs k x).flatten (gs.flatten ++ [x]) := by
  induction gs generalizing k with
  | nil => simp at hk
  | cons g gs ih =>
    cases k with
    | zero =>
      simp only [appendAt, List.getD_cons_zero, List.set_cons_zero,
        List.flatten_cons, List.append_assoc]
      exact List.Perm.append_left g List.perm_append_comm
    | succ k =>
      simp only [appendAt, List.getD_cons_succ, List.set_cons_succ,
        List.flatten_cons]
      have h := ih k (Nat.lt_of_succ_lt_succ hk)
      calc List.Perm (g ++ (appendAt gs k x).flatten)
            (g ++ (gs.flatten ++ [x])) := List.Perm.append_left g h
        _ = g ++ gs.flatten ++ [x] := by rw [List.append_assoc]

theorem flatten_distribute_perm {α : Type} (ps : List (Nat × α)) (n : Nat)
    (hn : 0 < n) (gs : List (List α)) (hlen : gs.length = n) :
    List.Perm (distribute ps n gs).flatten (gs.flatten ++ ps.map Prod.snd) := by
  induction ps generalizing gs with
  | nil => simp [distribute]
  | cons q ps ih =>
    have hmod : q.1 % n < gs.length := by
      rw [hlen]; exact Nat.mod_lt _ hn
    have hstep : distribute (q :: ps) n gs
        = distribute ps n (appendAt gs (q.1 % n) q.2) := rfl
    rw [hstep]
    refine List.Perm.trans (ih _ (by rw [appendAt_length, hlen])) ?_
    refine List.Perm.trans
      (List.Perm.append (flatten_appendAt_perm gs (q.1 % n) q.2 hmod)
        (List.Perm.refl (ps.map Prod.snd))) ?_
    have he : gs.flatten ++ [q.2] ++ ps.map Prod.snd
        = gs.flatten ++ (q :: ps).map Prod.snd := by
      simp
    rw [he]

theorem getD_replicate_nil {α : Type} (n j : Nat) :
    (List.replicate n ([] : List α)).getD j [] = [] := by
  induction n generalizing j with
  | zero => simp
  | succ n ih => cases j <;> simp [List.replicate, ih]

theorem flatten_replicate_nil {α : Type} (n : Nat) :
    (List.replicate n ([] : List α)).flatten = [] := by
  induction n with
  | zero => rfl
  | succ n ih => simp [List.replicate, ih]

/-- C2: for every file list and every concurrency level `n ≥ 1` the split
produces exactly `n` groups; group `j` holds, in input order, exactly the
files whose input index is congruent to `j` mod `n` (so the file at index
`i` lands in group `i % n`, and groups are empty when no index maps to
them); and the groups together are a permutation of the input list, so each
file appears exactly once overall. -/
theorem splitGroups_round_robin {α : Type} (fns : List α) (n : Nat) (hn : 1 ≤ n) :
    (splitGroups fns n).length = n
    ∧ (∀ j, j < n → (splitGroups fns n).getD j []
        = (fns.enum.filter (fun q => q.1 % n == j)).map Prod.snd)
    ∧ (∀ i (h : i < fns.length), fns.get ⟨i, h⟩ ∈ (splitGroups fns n).getD (i % n) [])
    ∧ List.Perm (splitGroups fns n).flatten fns := by
  have h0 : 0 < n := hn
  have hchar : ∀ j, j < n → (splitGroups fns n).getD j []
      = (fns.enum.filter (fun q => q.1 % n == j)).map Prod.snd := by
    intro j hj
    rw [splitGroups, distribute_getD _ _ _ (List.length_replicate n []) j hj,
      getD_replicate_nil]
    rfl
  refine ⟨?_, hchar, ?_, ?_⟩
  · rw [splitGroups, distribute_length, List.length_replicate]
  · intro i h
    have hi : i % n < n := Nat.mod_lt _ h0
    rw [hchar (i % n) hi]
    have hlen : i < fns.enum.length := by rw [List.enum_length]; exact h
    have hmem : (i, fns.get ⟨i, h⟩) ∈ fns.enum := by
      have hg : fns.enum[i] = (i, fns[i]) := List.getElem_enum fns i hlen
      have := List.getElem_mem hlen
      rw [hg] at this
      simpa [List.get_eq_getElem] using this
    refine List.mem_map.2 ⟨(i, fns.get ⟨i, h⟩), List.mem_filter.2 ⟨hmem, ?_⟩, rfl⟩
    simp
  · rw [splitGroups]
    have h := flatten_distribute_perm fns.enum n h0 (List.replicate n [])
      (List.length_replicate n [])
    rw [flatten_replicate_nil] at h
    simpa [List.enum_map_snd] using h

/-- C2 witness: `splitGroups_round_robin` applied to the three-element list
`[10, 20, 30]` at concurrency 2. -/
theorem splitGroups_round_robin_check :
    (splitGroups ([10, 20, 30] : List Nat) 2).length = 2
    ∧ (splitGroups ([10, 20, 30] : List Nat) 2).getD 0 []
        = (([10, 20, 30] : List Nat).enum.filter (fun q => q.1 % 2 == 0)).map Prod.snd
    ∧ ([10, 20, 30] : List Nat).get ⟨1, by decide⟩
        ∈ (splitGroups ([10, 20, 30] : List Nat) 2).getD (1 % 2) []
    ∧ List.Perm (splitGroups ([10, 20, 30] : List Nat) 2).flatten [10, 20, 30] :=
  ⟨(splitGroups_round_robin [10, 20, 30] 2 (by decide)).1,
   (splitGroups_round_robin [10, 20, 30] 2 (by decide)).2.1 0 (by decide),
   (splitGroups_round_robin [10, 20, 30] 2 (by decide)).2.2.1 1 (by decide),
   (splitGroups_round_robin [10, 20, 30] 2 (by decide)).2.2.2⟩

theorem runLoop_succ (outcome : Str → Bool) (n : Nat) (st : QueueState)
    (fn : Str) (h : st.filenames.getLast? = some fn) :
    runLoop outcome (n + 1) st
      = runLoop outcome n (popLast (s3upload outcome st fn)) := by
  rw [runLoop, h]

theorem runLoop_eq (outcome : Str → Bool) (fns fl : List Str) (c : Counter)
    (a : List Str) (s : Nat) :
    runLoop outcome fns.length ⟨fns, fl, c, a, s⟩ =
      ⟨[], (processSeq outcome fns.reverse (fl, c)).1,
        (processSeq outcome fns.reverse (fl, c)).2, a ++ fns.reverse, s⟩ := by
  induction fns using List.reverseRecOn generalizing fl c a with
  | nil => simp [runLoop, processSeq]
  | append_singleton ys y ih =>
    have hlen : (ys ++ [y]).length = ys.length + 1 := by simp
    rw [hlen, runLoop_succ outcome ys.length _ y (List.getLast?_concat ys)]
    by_cases hy : outcome y
    · have hst : popLast (s3upload outcome ⟨ys ++ [y], fl, c, a, s⟩ y)
          = ⟨ys, fl, counterCall c false, a ++ [y], s⟩ := by
        simp [s3upload, popLast, hy, List.dropLast_concat]
      rw [hst, ih]
      have hrev : (ys ++ [y]).reverse = y :: ys.reverse := by simp
      have hps : processSeq outcome (y :: ys.reverse) (fl, c)
          = processSeq outcome ys.reverse (fl, counterCall c false) := by
        simp [processSeq, hy]
      rw [hrev, hps]
      simp
    · have hst : popLast (s3upload outcome ⟨ys ++ [y], fl, c, a, s⟩ y)
          = ⟨ys, fl ++ [y], counterCall c false, a ++ [y], s⟩ := by
        simp [s3upload, popLast, hy, List.dropLast_concat]
      rw [hst, ih]
      have hrev : (ys ++ [y]).reverse = y :: ys.reverse := by simp
      have hps : processSeq outcome (y :: ys.reverse) (fl, c)
          = processSeq outcome ys.reverse (fl ++ [y], counterCall c false) := by
        simp [processSeq, hy]
      rw [hrev, hps]
      simp

theorem processSeq_failed (outcome : Str → Bool) (l fl : List Str) (c : Counter) :
    (processSeq outcome l (fl, c)).1 = fl ++ l.filter (fun f => !(outcome f)) := by
  induction l generalizing fl c with
  | nil => simp [processSeq]
  | cons f l ih =>
    by_cases hf : outcome f
    · rw [show processSeq outcome (f :: l) (fl, c)
          = processSeq outcome l (fl, counterCall c false) from by
        simp [processSeq, hf]]
      rw [ih, List.filter_cons]
      simp [hf]
    · rw [show processSeq outcome (f :: l) (fl, c)
          = processSeq outcome l (fl ++ [f], counterCall c false) from by
        simp [processSeq, hf]]
      rw [ih, List.filter_cons]
      simp [hf]

theorem processSeq_counter (outcome : Str → Bool) (l fl : List Str) (c : Counter) :
    (processSeq outcome l (fl, c)).2.errors = c.errors
    ∧ (processSeq outcome l (fl, c)).2.count = c.count + l.length := by
  induction l generalizing fl c with
  | nil => simp [processSeq]
  | cons f l ih =>
    by_cases hf : outcome f
    · rw [show processSeq outcome (f :: l) (fl, c)
          = processSeq outcome l (fl, counterCall c false) from by
        simp [processSeq, hf]]
      refine ⟨(ih _ _).1, ?_⟩
      rw [(ih _ _).2]
      simp [counterCall]
      omega
    · rw [show processSeq outcome (f :: l) (fl, c)
          = processSeq outcome l (fl ++ [f], counterCall c false) from by
        simp [processSeq, hf]]
      refine ⟨(ih _ _).1, ?_⟩
      rw [(ih _ _).2]
      simp [counterCall]
      omega

theorem s3queue_run_eq (outcome : Str → Bool) (fns fl : List Str) (c : Counter)
    (a : List Str) (s : Nat) :
    S3Queue.run outcome ⟨fns, fl, c, a, s⟩ =
      ⟨[], (processSeq outcome fns.reverse (fl, c)).1,
        (processSeq outcome fns.reverse (fl, c)).2, a ++ fns.reverse, s + 1⟩ :=
  runLoop_eq outcome fns fl c a (s + 1)

/-- C5 counterexample: on the partition `["a", "b"]` the first upload
attempt of `S3Queue.run` is `"b"`, the task at index 1, not the task at
index 0 of the partition: the worker drains the list from the back. -/
theorem s3queue_run_not_forward_order :
    (S3Queue.run (fun _ => true)
        ⟨[("a").data, ("b").data], [], ⟨0, 0⟩, [], 0⟩).attempts.getD 0 []
      ≠ ([("a").data, ("b").data] : List Str).getD 0 [] := by
  decide

/-- C5 amended: the worker attempts the uploads strictly sequentially in
reverse partition order: the sequence of upload attempts is the reversal of
the partition list, so the i-th attempt is the task at index
`length - 1 - i`, not the task at index i. -/
theorem s3queue_run_reverse_order (outcome : Str → Bool) (fns fl : List Str)
    (c : Counter) (a : List Str) (s : Nat) :
    (S3Queue.run outcome ⟨fns, fl, c, a, s⟩).attempts = a ++ fns.reverse := by
  rw [s3queue_run_eq]

/-- C6: `_upload` never touches the partition (a task is removed only by
the `pop()` that runs after the upload attempt has completed); one loop
iteration on a non-empty partition is exactly upload-the-last-task followed
by `pop`; a worker whose partition has been cleared performs no further
uploads and keeps its failure list, counter and attempt trace intact; and
`S3Uploader.stop` empties every queue's partition while preserving every
queue's failure records and counter. -/
theorem task_removed_only_after_upload :
    (∀ outcome st fn, (s3upload outcome st fn).filenames = st.filenames)
    ∧ (∀ outcome ys y fl c a s,
        queueStep outcome ⟨ys ++ [y], fl, c, a, s⟩
          = popLast (s3upload outcome ⟨ys ++ [y], fl, c, a, s⟩ y))
    ∧ (∀ outcome fl c a s,
        runRemaining outcome ⟨[], fl, c, a, s⟩ = ⟨[], fl, c, a, s⟩)
    ∧ (∀ qs, (stopQueues qs).map (fun q => q.filenames) = qs.map (fun _ => [])
        ∧ (stopQueues qs).map (fun q => q.failed) = qs.map (fun q => q.failed)
        ∧ (stopQueues qs).map (fun q => q.counter) = qs.map (fun q => q.counter)) := by
  refine ⟨?_, ?_, ?_, ?_⟩
  · intro outcome st fn
    rw [s3upload]
    split <;> rfl
  · intro outcome ys y fl c a s
    simp [queueStep, List.getLast?_concat]
  · intro outcome fl c a s
    rfl
  · intro qs
    refine ⟨?_, ?_, ?_⟩
    · induction qs with
      | nil => rfl
      | cons q qs ih => simpa [stopQueues] using ih
    · simp [stopQueues]
    · simp [stopQueues]

/-- C10: every call of `S3Uploader.counter` increments the completed count
by exactly one, and increments the error count by one exactly when the
`error` argument is true; consequently, starting from the zeroed counter,
after any sequence of calls the error count never exceeds the completed
count. -/
theorem counter_increment_spec :
    (∀ c e, (counterCall c e).count = c.count + 1
      ∧ (counterCall c e).errors = if e then c.errors + 1 else c.errors)
    ∧ (∀ calls : List Bool,
        (calls.foldl counterCall ⟨0, 0⟩).errors
          ≤ (calls.foldl counterCall ⟨0, 0⟩).count) := by
  constructor
  · intro c e
    exact ⟨rfl, rfl⟩
  · intro calls
    have h : ∀ (l : List Bool) (c : Counter), c.errors ≤ c.count →
        (l.foldl counterCall c).errors ≤ (l.foldl counterCall c).count := by
      intro l
      induction l with
      | nil => intro c h; exact h
      | cons e l ih =>
        intro c h
        refine ih _ ?_
        cases e <;> simp [counterCall] <;> omega
    exact h calls ⟨0, 0⟩ (Nat.le_refl 0)

theorem keep_step (incl excl : List (Str → Bool)) (fn : Str) (st : List Str × Nat) :
    (if !incl.isEmpty && !(incl.any fun r => r fn) then st
     else if !excl.isEmpty && (excl.any fun r => r fn) then st
     else (st.1 ++ [fn], st.2 + 1))
    = (if (incl.isEmpty || incl.any fun r => r fn) && !(excl.any fun r => r fn)
        then (st.1 ++ [fn], st.2 + 1) else st) := by
  cases excl with
  | nil =>
    cases hie : incl.isEmpty <;> cases hia : (incl.any fun r => r fn) <;>
      simp [hie, hia]
  | cons e es =>
    cases hie : incl.isEmpty <;> cases hia : (incl.any fun r => r fn) <;>
      cases hea : ((e :: es).any fun r => r fn) <;>
        simp [hie, hia, hea]

theorem get_filenames_fold (incl excl : List (Str → Bool)) (walked : List Str)
    (acc : List Str) (k : Nat) :
    walked.foldl
      (fun st fn =>
        if !incl.isEmpty && !(incl.any fun r => r fn) then st
        else if !excl.isEmpty && (excl.any fun r => r fn) then st
        else (st.1 ++ [fn], st.2 + 1))
      (acc, k)
    = (acc ++ walked.filter
          (fun fn => (incl.isEmpty || incl.any fun r => r fn)
            && !(excl.any fun r => r fn)),
        k + (walked.filter
          (fun fn => (incl.isEmpty || incl.any fun r => r fn)
            && !(excl.any fun r => r fn))).length) := by
  induction walked generalizing acc k with
  | nil => simp
  | cons fn ws ih =>
    simp only [List.foldl_cons]
    conv_lhs => rw [keep_step incl excl fn (acc, k)]
    rw [List.filter_cons]
    by_cases hp : ((incl.isEmpty || incl.any fun r => r fn)
        && !(excl.any fun r => r fn)) = true
    · rw [if_pos hp, if_pos hp]
      rw [ih]
      simp only [Prod.mk.injEq]
      refine ⟨by simp, by rw [Nat.add_assoc, Nat.add_comm 1, List.length_cons]⟩
    · rw [if_neg hp, if_neg hp, ih]

/-- C7: `get_filenames` returns exactly the walked paths that pass the
filter: when the include list is non-empty the path must search-match at
least one include pattern (an empty include list lets every path pass),
and the path must match no exclude pattern — exclusion is a separate later
test, so it wins even when an include pattern matched; and the recorded
total equals the number of returned paths. -/
theorem get_filenames_filter_spec (incl excl : List (Str → Bool))
    (walked : List Str) :
    (S3Uploader.get_filenames incl excl walked).1
      = walked.filter
          (fun fn => (incl.isEmpty || incl.any fun r => r fn)
            && !(excl.any fun r => r fn))
    ∧ (S3Uploader.get_filenames incl excl walked).2
      = (S3Uploader.get_filenames incl excl walked).1.length := by
  rw [S3Uploader.get_filenames, get_filenames_fold]
  simp

theorem s3queue_run_failed (outcome : Str → Bool) (g : List Str) (c : Counter) :
    (S3Queue.run outcome ⟨g, [], c, [], 0⟩).failed
      = g.reverse.filter (fun f => !(outcome f)) := by
  rw [s3queue_run_eq]
  show (processSeq outcome g.reverse ([], c)).1 = _
  rw [processSeq_failed]
  rfl

theorem s3queue_run_sessions (outcome : Str → Bool) (g fl : List Str)
    (c : Counter) (a : List Str) (s : Nat) :
    (S3Queue.run outcome ⟨g, fl, c, a, s⟩).sessions = s + 1 := by
  rw [s3queue_run_eq]

theorem s3queue_run_errors (outcome : Str → Bool) (g : List Str) (c : Counter) :
    (S3Queue.run outcome ⟨g, [], c, [], 0⟩).counter.errors = c.errors := by
  rw [s3queue_run_eq]
  show (processSeq outcome g.reverse ([], c)).2.errors = c.errors
  exact (processSeq_counter outcome g.reverse [] c).1

theorem startQueuesFrom_failed (outcome : Str → Bool) (groups : List (List Str))
    (acc : List QueueState) (c : Counter) :
    ((startQueuesFrom outcome groups acc c).1).map (fun st => st.failed)
      = acc.map (fun st => st.failed)
        ++ groups.map (fun g => g.reverse.filter (fun f => !(outcome f))) := by
  induction groups generalizing acc c with
  | nil => simp [startQueuesFrom]
  | cons g gs ih =>
    rw [show startQueuesFrom outcome (g :: gs) acc c
        = startQueuesFrom outcome gs
            (acc ++ [S3Queue.run outcome ⟨g, [], c, [], 0⟩])
            ((S3Queue.run outcome ⟨g, [], c, [], 0⟩).counter) from rfl]
    rw [ih]
    simp [s3queue_run_failed]

theorem startQueuesFrom_sessions (outcome : Str → Bool) (groups : List (List Str))
    (acc : List QueueState) (c : Counter) :
    ((startQueuesFrom outcome groups acc c).1).map (fun st => st.sessions)
      = acc.map (fun st => st.sessions) ++ groups.map (fun _ => 1) := by
  induction groups generalizing acc c with
  | nil => simp [startQueuesFrom]
  | cons g gs ih =>
    rw [show startQueuesFrom outcome (g :: gs) acc c
        = startQueuesFrom outcome gs
            (acc ++ [S3Queue.run outcome ⟨g, [], c, [], 0⟩])
            ((S3Queue.run outcome ⟨g, [], c, [], 0⟩).counter) from rfl]
    rw [ih]
    simp [s3queue_run_sessions]

theorem startQueuesFrom_errors (outcome : Str → Bool) (groups : List (List Str))
    (acc : List QueueState) (c : Counter) :
    (startQueuesFrom outcome groups acc c).2.errors = c.errors := by
  induction groups generalizing acc c with
  | nil => rfl
  | cons g gs ih =>
    rw [show startQueuesFrom outcome (g :: gs) acc c
        = startQueuesFrom outcome gs
            (acc ++ [S3Queue.run outcome ⟨g, [], c, [], 0⟩])
            ((S3Queue.run outcome ⟨g, [], c, [], 0⟩).counter) from rfl]
    rw [ih, s3queue_run_errors]

theorem startQueuesFrom_length (outcome : Str → Bool) (groups : List (List Str))
    (acc : List QueueState) (c : Counter) :
    (startQueuesFrom outcome groups acc c).1.length
      = acc.length + groups.length := by
  induction groups generalizing acc c with
  | nil => simp [startQueuesFrom]
  | cons g gs ih =>
    rw [show startQueuesFrom outcome (g :: gs) acc c
        = startQueuesFrom outcome gs
            (acc ++ [S3Queue.run outcome ⟨g, [], c, [], 0⟩])
            ((S3Queue.run outcome ⟨g, [], c, [], 0⟩).counter) from rfl]
    rw [ih]
    simp
    omega

theorem foldl_append_failed (l : List QueueState) (init : List Str) :
    l.foldl (fun fl st => fl ++ st.failed) init
      = init ++ (l.map (fun st => st.failed)).flatten := by
  induction l generalizing init with
  | nil => simp
  | cons st l ih =>
    rw [List.foldl_cons, ih]
    simp

theorem foldl_add_sessions (l : List QueueState) (k : Nat) :
    l.foldl (fun k st => k + st.sessions) k
      = k + (l.map (fun st => st.sessions)).sum := by
  induction l generalizing k with
  | nil => simp
  | cons st l ih =>
    rw [List.foldl_cons, ih]
    simp
    omega

theorem sum_map_one {α : Type} (L : List α) :
    (L.map fun _ => (1 : Nat)).sum = L.length := by
  induction L with
  | nil => rfl
  | cons g L ih =>
    simp [ih]
    omega

theorem flatten_map_reverse_filter_perm (p : Str → Bool) (L : List (List Str)) :
    List.Perm ((L.map fun g => g.reverse.filter p).flatten)
      (L.flatten.filter p) := by
  induction L with
  | nil => simp
  | cons g L ih =>
    rw [List.map_cons, List.flatten_cons, List.flatten_cons, List.filter_append]
    exact List.Perm.append (List.Perm.filter p (List.reverse_perm g)) ih

theorem splitGroups_flatten_perm {α : Type} (fns : List α) (n : Nat)
    (hn : 0 < n) : List.Perm (splitGroups fns n).flatten fns := by
  have h := flatten_distribute_perm fns.enum n hn (List.replicate n [])
    (List.length_replicate n [])
  rw [splitGroups]
  rw [flatten_replicate_nil] at h
  simpa [List.enum_map_snd] using h

theorem upload_failures_perm (outcome : Str → Bool) (fns : List Str) (n : Nat)
    (hn : 0 < n) :
    List.Perm (S3Uploader.upload outcome fns n).failures
      (fns.filter (fun f => !(outcome f))) := by
  show List.Perm
    ((startQueuesFrom outcome (splitGroups fns n) [] ⟨0, 0⟩).1.foldl
      (fun fl st => fl ++ st.failed) []) _
  rw [foldl_append_failed, startQueuesFrom_failed]
  simp only [List.map_nil, List.nil_append]
  exact List.Perm.trans
    (flatten_map_reverse_filter_perm (fun f => !(outcome f)) (splitGroups fns n))
    (List.Perm.filter _ (splitGroups_flatten_perm fns n hn))

/-- C8: a failing upload attempt appends exactly the task's original path
to the worker's failure list; a failure never aborts the worker — every
task of the partition is attempted and the partition is fully drained no
matter which attempts fail (the bare `except:` turns any exception into
recorded data); and the failure lists collected from all workers and
returned by `upload` are, as a multiset, exactly the files whose upload
failed. -/
theorem per_file_failure_isolation :
    (∀ outcome st fn, outcome fn = false →
        (s3upload outcome st fn).failed = st.failed ++ [fn])
    ∧ (∀ outcome fns fl c a s,
        (S3Queue.run outcome ⟨fns, fl, c, a, s⟩).attempts = a ++ fns.reverse
        ∧ (S3Queue.run outcome ⟨fns, fl, c, a, s⟩).filenames = [])
    ∧ (∀ outcome fns n, 1 ≤ n →
        List.Perm (S3Uploader.upload outcome fns n).failures
          (fns.filter (fun f => !(outcome f)))) := by
  refine ⟨?_, ?_, ?_⟩
  · intro outcome st fn h
    simp [s3upload, h]
  · intro outcome fns fl c a s
    rw [s3queue_run_eq]
    exact ⟨rfl, rfl⟩
  · intro outcome fns n hn
    exact upload_failures_perm outcome fns n hn

/-- C8 witness: `per_file_failure_isolation` at an always-failing store, a
concrete queue state and the concrete file list `["a", "b", "c"]` at
concurrency 2. -/
theorem per_file_failure_isolation_check :
    ((fun _ => false) (("a").data) : Bool) = false
    ∧ (s3upload (fun _ => false)
        ⟨[], [], ⟨0, 0⟩, [], 0⟩ (("a").data)).failed = [] ++ [("a").data]
    ∧ (1 : Nat) ≤ 2
    ∧ List.Perm
        (S3Uploader.upload (fun _ => false)
          [("a").data, ("b").data, ("c").data] 2).failures
        ([("a").data, ("b").data, ("c").data].filter
          (fun f => !((fun _ => false) f))) :=
  ⟨rfl,
   per_file_failure_isolation.1 (fun _ => false) ⟨[], [], ⟨0, 0⟩, [], 0⟩
     (("a").data) rfl,
   by decide,
   per_file_failure_isolation.2.2 (fun _ => false)
     [("a").data, ("b").data, ("c").data] 2 (by decide)⟩

/-- C9 counterexample: with the single file `"a"` and concurrency 2 there
is exactly one non-empty partition, yet two workers are started and two
bucket sessions are opened: `upload` starts a queue for every partition,
and `run` calls `bucket.get_new()` before it first checks whether its list
is empty, so even the worker owning the empty partition opens a session. -/
theorem worker_started_for_empty_partition :
    ((splitGroups [("a").data] 2).filter (fun g => !g.isEmpty)).length = 1
    ∧ (S3Uploader.upload (fun _ => true) [("a").data] 2).workersStarted = 2
    ∧ (S3Uploader.upload (fun _ => true) [("a").data] 2).sessionsOpened = 2 := by
  refine ⟨by decide, by decide, by decide⟩

/-- C9 amended: for every run with concurrency `n ≥ 1` the coordinator
starts one upload worker per partition — empty partitions included, so
exactly `n` workers — and every started worker opens its own independent
store session, so exactly `n` sessions are opened even when the
concurrency exceeds the number of files. -/
theorem one_worker_per_partition (outcome : Str → Bool) (fns : List Str)
    (n : Nat) (hn : 1 ≤ n) :
    (S3Uploader.upload outcome fns n).workersStarted = n
    ∧ (S3Uploader.upload outcome fns n).sessionsOpened = n := by
  have hpos : 0 < n := hn
  have hg : (splitGroups fns n).length = n := by
    rw [splitGroups, distribute_length, List.length_replicate]
  constructor
  · show (startQueuesFrom outcome (splitGroups fns n) [] ⟨0, 0⟩).1.length = n
    rw [startQueuesFrom_length]
    simpa using hg
  · show (startQueuesFrom outcome (splitGroups fns n) [] ⟨0, 0⟩).1.foldl
      (fun k st => k + st.sessions) 0 = n
    rw [foldl_add_sessions, startQueuesFrom_sessions]
    simpa [sum_map_one] using hg

/-- C9 witness: `one_worker_per_partition` at one file and concurrency 2. -/
theorem one_worker_per_partition_check :
    (1 : Nat) ≤ 2
    ∧ (S3Uploader.upload (fun _ => true) [("a").data] 2).workersStarted = 2
    ∧ (S3Uploader.upload (fun _ => true) [("a").data] 2).sessionsOpened = 2 :=
  ⟨by decide,
   (one_worker_per_partition (fun _ => true) [("a").data] 2 (by decide)).1,
   (one_worker_per_partition (fun _ => true) [("a").data] 2 (by decide)).2⟩

/-- C1 at the failing input (one file, concurrency 1, every upload fails):
the returned failure list length equals the total file count 1 and the
completed count is 1, but the reported error count is 0, not 1 — in fact
`S3Uploader.errors` is 0 after every run, because the failure branch of
`S3Queue._upload` calls `self.counter(False)`, and `S3Uploader.counter`
increments `errors` only when its argument is true. -/
theorem all_fail_errors_stay_zero :
    (S3Uploader.upload (fun _ => false) [("a").data] 1).failures.length = 1
    ∧ (S3Uploader.upload (fun _ => false) [("a").data] 1).counter.count = 1
    ∧ (S3Uploader.upload (fun _ => false) [("a").data] 1).counter.errors = 0
    ∧ (∀ outcome fns n, (S3Uploader.upload outcome fns n).counter.errors = 0) := by
  refine ⟨by decide, by decide, by decide, ?_⟩
  intro outcome fns n
  exact startQueuesFrom_errors outcome (splitGroups fns n) [] ⟨0, 0⟩
